import Mathlib

/-!
Verification development for `darkgreybox/fit.py`.

The file embeds the four functions of the source module —
`train_models`, `train_model`, `reduce_results_df`, `get_ic_params` —
as executable Lean definitions over an explicit model of pandas
values (`PVal`), data frames (`Frame`), series (`Series`) and Python
exceptions (`Except PyError`), and proves the specification's claims
about them.
-/

/-- Cell values as pandas sees them: `nan` is the missing marker
(`np.NaN`), `inf`/`ninf` are positive/negative infinity, and finite
floats are modelled as exact rationals. -/
inductive PVal where
  | nan : PVal
  | inf : PVal
  | ninf : PVal
  | num : ℚ → PVal
deriving DecidableEq, Repr

/-- Python exception classes relevant to `fit.py`: `ValueError`
(the only class the source catches), `KeyError` (missing column
label) and `IndexError` (positional access out of range). -/
inductive PyError where
  | valueError : PyError
  | keyError : PyError
  | indexError : PyError
deriving DecidableEq, Repr

/-- A `pandas.DataFrame`: an index (list of index values) together
with named columns; well-formed frames have every column of the same
length as the index. -/
structure Frame where
  index : List PVal
  cols : List (String × List PVal)
deriving DecidableEq, Repr

/-- A `pandas.Series`: an index together with its values. -/
structure Series where
  index : List PVal
  values : List PVal
deriving DecidableEq, Repr

/-- The object returned by `model.predict`, exposing the predicted
output series as attribute `Z`. -/
structure Prediction where
  Z : List PVal
deriving DecidableEq, Repr

/-- A `DarkGreyModel` as `fit.py` uses it: a readable parameter
mapping `params`, an external `fit` method (which may raise) returning
a fitted model, and an external `predict` method (which may raise)
returning a `Prediction`.  The behaviour of `fit`/`predict` is
external to `fit.py`, so it is carried by the object itself. -/
inductive DGModel : Type where
  | mk
    (params : List (String × PVal))
    (fitFn : List (String × List PVal) → List PVal → String →
             List (String × PVal) → Except PyError DGModel)
    (predictFn : Frame → Except PyError Prediction)

/-- The parameter mapping of a model (`model.params`). -/
def DGModel.params : DGModel → List (String × PVal)
  | .mk p _ _ => p

/-- The external `fit` method of a model. -/
def DGModel.fitFn : DGModel → (List (String × List PVal) → List PVal → String →
    List (String × PVal) → Except PyError DGModel)
  | .mk _ f _ => f

/-- The external `predict` method of a model. -/
def DGModel.predictFn : DGModel → (Frame → Except PyError Prediction)
  | .mk _ _ p => p

/-- One row of the result table assembled by `train_model`:
columns `start_date`, `end_date`, `model`, `model_result`, `time`,
`method`, `error`.  `Option` `none` models the `np.NaN` marker in the
object-valued columns. -/
structure FitRecord where
  start_date : PVal
  end_date : PVal
  model : Option DGModel
  model_result : Option Prediction
  time : PVal
  method : String
  error : PVal

instance : Inhabited FitRecord :=
  ⟨⟨PVal.nan, PVal.nan, none, none, PVal.nan, "", PVal.nan⟩⟩

/-- Positional element access: `l[i]`, raising `IndexError` when the
position is out of range (Python positional indexing). -/
def getPos (l : List PVal) (i : ℕ) : Except PyError PVal :=
  match l.get? i with
  | some v => Except.ok v
  | none => Except.error PyError.indexError

/-- `X_train.iloc[0][key]`: positional access to the first row
(raising `IndexError` on an empty frame) followed by label access to
column `key` (raising `KeyError` when the label is absent). -/
def Frame.iloc0 (X : Frame) (key : String) : Except PyError PVal :=
  match X.index with
  | [] => Except.error PyError.indexError
  | _ :: _ =>
    match X.cols.find? (fun c => c.1 == key) with
    | none => Except.error PyError.keyError
    | some (_, vs) =>
      match vs with
      | [] => Except.error PyError.indexError
      | v :: _ => Except.ok v

/-- `X_train.to_dict(orient='list')`: the frame as a mapping from
column name to the ordered list of the column's values. -/
def Frame.toDictList (X : Frame) : List (String × List PVal) :=
  X.cols

/-- The loop body of `get_ic_params`: when the key of parameter `p`
contains the character `'0'` (the Python test `'0' in key`:
membership of the character among the key's characters), bind the key
to `X_train.iloc[0][key]` in the accumulated mapping. -/
def icStep (X_train : Frame) (acc : List (String × PVal))
    (p : String × PVal) : Except PyError (List (String × PVal)) :=
  if p.1.data.contains '0' then do
    let v ← X_train.iloc0 p.1
    pure (acc ++ [(p.1, v)])
  else
    pure acc

/-- `get_ic_params(model, X_train)` from `fit.py`: iterate over the
keys of `model.params` in order, collecting the initial-condition
bindings via `icStep`. -/
def get_ic_params (model : DGModel) (X_train : Frame) :
    Except PyError (List (String × PVal)) :=
  model.params.foldlM (icStep X_train) []

/-- `X_train.index[0]` (raises `IndexError` on an empty index). -/
def Frame.indexFirst (X : Frame) : Except PyError PVal :=
  match X.index with
  | [] => Except.error PyError.indexError
  | v :: _ => Except.ok v

/-- `X_train.index[-1]` (raises `IndexError` on an empty index). -/
def Frame.indexLast (X : Frame) : Except PyError PVal :=
  match X.index.getLast? with
  | none => Except.error PyError.indexError
  | some v => Except.ok v

/-- An error-metric function `(y_true, y_pred) -> scalar`; external,
so it may raise. -/
abbrev Metric := List PVal → List PVal → Except PyError PVal

/-- The body of the `try` block of `train_model`: evaluate the
arguments of `model.fit` — `X_train.to_dict(orient='list')`,
`y_train.values`, the method name, `get_ic_params(model, X_train)` —
and invoke the model's fit method. -/
def fitStage (model : DGModel) (X_train : Frame) (y_train : Series)
    (method : String) : Except PyError DGModel := do
  let ic ← get_ic_params model X_train
  model.fitFn X_train.toDictList y_train.values method ic

/-- The single-row failure table `train_model` returns from its
`except ValueError` branch: `model`, `model_result` and `error` are
the `np.NaN` marker, the window's index bounds, the elapsed time and
the method name are still recorded. -/
def failRow (X_train : Frame) (method : String) (t1 t2 : ℚ) :
    Except PyError (List FitRecord) := do
  let s ← X_train.indexFirst
  let e ← X_train.indexLast
  Except.ok [{ start_date := s, end_date := e, model := none,
               model_result := none, time := PVal.num (t2 - t1),
               method := method, error := PVal.nan }]

/-- The tail of `train_model` after a successful fit: the fitted
model predicts over the window (uncaught: a raising `predict`
propagates), the timer is stopped, and the scored single-row table is
assembled (`error_metric` is likewise uncaught). -/
def successRows (fitted : DGModel) (X_train : Frame) (y_train : Series)
    (error_metric : Metric) (method : String) (t1 t2 : ℚ) :
    Except PyError (List FitRecord) := do
  let model_result ← fitted.predictFn X_train
  let s ← X_train.indexFirst
  let e ← X_train.indexLast
  let err ← error_metric y_train.values model_result.Z
  Except.ok [{ start_date := s, end_date := e, model := some fitted,
               model_result := some model_result,
               time := PVal.num (t2 - t1), method := method,
               error := err }]

/-- `train_model(base_model, X_train, y_train, error_metric, method)`
from `fit.py`.  `t1`, `t2` are the two monotone readings of
`timeit.default_timer` taken at the start and at the end of the call.
A deep copy of `base_model` is fitted (value semantics in Lean: the
copy is the value itself); a `ValueError` from the `try` block yields
the failure row, any other exception propagates; on success the
fitted model predicts over the window and the scored row is
returned. -/
def train_model (base_model : DGModel) (X_train : Frame) (y_train : Series)
    (error_metric : Metric) (method : String) (t1 t2 : ℚ) :
    Except PyError (List FitRecord) :=
  let model := base_model
  match fitStage model X_train y_train method with
  | Except.error PyError.valueError => failRow X_train method t1 t2
  | Except.error e => Except.error e
  | Except.ok fitted =>
    successRows fitted X_train y_train error_metric method t1 t2

/-- `series.iloc[idx]` for a list of row positions: positional row
selection on both index and values (raises `IndexError` when a
position is out of range). -/
def Series.ilocRows (s : Series) (idx : List ℕ) : Except PyError Series := do
  let newIndex ← idx.mapM (getPos s.index)
  let newValues ← idx.mapM (getPos s.values)
  Except.ok { index := newIndex, values := newValues }

/-- `X_train.iloc[idx]` for a list of row positions: positional row
selection of the index and of every column. -/
def Frame.ilocRows (X : Frame) (idx : List ℕ) : Except PyError Frame := do
  let newIndex ← idx.mapM (getPos X.index)
  let newCols ← X.cols.mapM (fun c => do
    let vs ← idx.mapM (getPos c.2)
    Except.ok (c.1, vs))
  Except.ok { index := newIndex, cols := newCols }

/-- The row-position lists iterated by
`for _, idx in splits or [(None, range(len(X_train)))]`: each split is
a pair whose first component is ignored; a `None` or empty `splits`
falls back to one split covering the whole window. -/
def effIdxLists {α : Type} (splits : Option (List (α × List ℕ))) (n : ℕ) :
    List (List ℕ) :=
  match splits with
  | none => [List.range n]
  | some [] => [List.range n]
  | some ss => ss.map Prod.snd

/-- The submission-ordered task list of `train_models`: the
cross-product of splits (outer loop, split-major) and models (inner
loop). -/
def taskList (models : List DGModel) (idxs : List (List ℕ)) :
    List (DGModel × List ℕ) :=
  idxs.flatMap (fun idx => models.map (fun m => (m, idx)))

/-- One unit of work of `train_models`: slice the training data to
the task's split and run `train_model` on it.  `times i` supplies the
two `timeit.default_timer` readings of submission `i`. -/
def runTask (X_train : Frame) (y_train : Series) (error_metric : Metric)
    (method : String) (times : ℕ → ℚ × ℚ) (i : ℕ) (t : DGModel × List ℕ) :
    Except PyError (List FitRecord) := do
  let Xs ← X_train.ilocRows t.2
  let ys ← y_train.ilocRows t.2
  train_model t.1 Xs ys error_metric method (times i).1 (times i).2

/-- Workers completing in the order given by `order`: each completed
unit is tagged with its submission index (the design's
"futures tagged with their submission index").  A raising worker
aborts the batch. -/
def execInOrder (task : ℕ → Except PyError (List FitRecord))
    (order : List ℕ) : Except PyError (List (ℕ × List FitRecord)) :=
  order.mapM (fun i => (task i).map (fun r => (i, r)))

/-- Reassembly of completed units in submission order, regardless of
the completion order. -/
def reassemble (n : ℕ) (completed : List (ℕ × List FitRecord)) :
    List (List FitRecord) :=
  (List.range n).filterMap (fun i => completed.lookup i)

/-- The worker body dispatched for submission index `i`. -/
def taskAt (X_train : Frame) (y_train : Series) (error_metric : Metric)
    (method : String) (times : ℕ → ℚ × ℚ)
    (tasks : List (DGModel × List ℕ)) (i : ℕ) :
    Except PyError (List FitRecord) :=
  match tasks.get? i with
  | some t => runTask X_train y_train error_metric method times i t
  | none => Except.error PyError.indexError

/-- `train_models(models, X_train, y_train, error_metric, splits,
method, n_jobs, verbose)` from `fit.py`.  With `n_jobs != 1` the
tasks run on a worker pool: `order` is the completion order of the
workers, and the one-row tables are concatenated in submission order
(`pd.concat(..., ignore_index=True)` over the pool's
submission-ordered results).  With `n_jobs = 1` the tasks run
strictly sequentially.  `verbose` is diagnostic only. -/
def train_models {α : Type} (models : List DGModel) (X_train : Frame)
    (y_train : Series) (error_metric : Metric)
    (splits : Option (List (α × List ℕ))) (method : String)
    (n_jobs : ℤ) (verbose : ℤ) (times : ℕ → ℚ × ℚ) (order : List ℕ) :
    Except PyError (List FitRecord) :=
  let _ := verbose
  let tasks := taskList models (effIdxLists splits X_train.index.length)
  if n_jobs ≠ 1 then
    (execInOrder (taskAt X_train y_train error_metric method times tasks)
        order).map
      (fun completed => (reassemble tasks.length completed).flatten)
  else
    (tasks.enum.mapM
        (fun p => runTask X_train y_train error_metric method times p.1 p.2)).map
      List.flatten

/-- Rounding of a rational `q = a/b` to an integer, half to even
(`numpy.round` semantics): `f` is the floor of `q` and `m = a - f*b`
its remainder, so `q - f = m/b` is compared with `1/2` by comparing
`2*m` with `b`; the midpoint goes to the even neighbour. -/
def rhe (q : ℚ) : ℤ :=
  let a := q.num
  let b := (q.den : ℤ)
  let f := Int.fdiv a b
  let m := a - f * b
  if 2 * m < b then f
  else if b < 2 * m then f + 1
  else if 2 ∣ f then f else f + 1

/-- Rounding of a rational to `d` decimal places, half to even:
`rhe (q * 10 ^ d) / 10 ^ d`. -/
def roundTo (d : ℕ) (q : ℚ) : ℚ :=
  Rat.divInt (rhe (Rat.divInt (q.num * 10 ^ d) (q.den : ℤ))) (10 ^ d)

/-- `df.replace([-np.inf, np.inf], np.nan)` on one cell: both
infinities become the missing marker. -/
def PVal.replaceInfNan : PVal → PVal
  | PVal.inf => PVal.nan
  | PVal.ninf => PVal.nan
  | v => v

/-- `df.replace([-np.inf, np.inf], np.nan)` on one row: the
replacement applies to every column; the object-valued columns
(`model`, `model_result`) and the string column (`method`) never hold
an infinity. -/
def FitRecord.replaceInf (r : FitRecord) : FitRecord :=
  { r with start_date := r.start_date.replaceInfNan,
           end_date := r.end_date.replaceInfNan,
           time := r.time.replaceInfNan,
           error := r.error.replaceInfNan }

/-- `df.dropna()` test on one row: true when any field holds the
missing marker. -/
def FitRecord.hasNa (r : FitRecord) : Bool :=
  r.start_date == PVal.nan || r.end_date == PVal.nan ||
  r.model.isNone || r.model_result.isNone ||
  r.time == PVal.nan || r.error == PVal.nan

/-- `df.round({'error': decimals})` on one cell: finite values are
rounded, the missing marker and infinities are unchanged. -/
def PVal.roundP (d : ℕ) : PVal → PVal
  | PVal.num q => PVal.num (roundTo d q)
  | v => v

/-- `df.round({'error': decimals})` on one row: only the `error`
column is rounded. -/
def FitRecord.roundError (d : ℕ) (r : FitRecord) : FitRecord :=
  { r with error := r.error.roundP d }

/-- The sort key of a cell: the rational value of a finite cell
(after the cleaning steps of `reduce_results_df` every sorted cell is
finite). -/
def PVal.key : PVal → ℚ
  | PVal.num q => q
  | _ => 0

/-- `sort_values('time')` key order. -/
def timeLe (a b : FitRecord) : Prop :=
  a.time.key ≤ b.time.key

instance : DecidableRel timeLe :=
  fun a b => inferInstanceAs (Decidable (a.time.key ≤ b.time.key))

instance : IsTotal FitRecord timeLe :=
  ⟨fun a b => le_total a.time.key b.time.key⟩

instance : IsTrans FitRecord timeLe :=
  ⟨fun _ _ _ h1 h2 => le_trans h1 h2⟩

/-- `sort_values('error')` key order. -/
def errorLe (a b : FitRecord) : Prop :=
  a.error.key ≤ b.error.key

instance : DecidableRel errorLe :=
  fun a b => inferInstanceAs (Decidable (a.error.key ≤ b.error.key))

instance : IsTotal FitRecord errorLe :=
  ⟨fun a b => le_total a.error.key b.error.key⟩

instance : IsTrans FitRecord errorLe :=
  ⟨fun _ _ _ h1 h2 => le_trans h1 h2⟩

/-- `drop_duplicates(subset=['error'], keep='first')`: keep a row
when its `error` value has not been seen yet. -/
def dedupGo (seen : List PVal) : List FitRecord → List FitRecord
  | [] => []
  | r :: rs =>
    if r.error ∈ seen then dedupGo seen rs
    else r :: dedupGo (r.error :: seen) rs

/-- `drop_duplicates(subset=['error'], keep='first')` on a table. -/
def dropDupError (l : List FitRecord) : List FitRecord :=
  dedupGo [] l

/-- The first three steps of `reduce_results_df`:
`df.replace([-np.inf, np.inf], np.nan).dropna().round({'error':
decimals})`. -/
def cleanStage (df : List FitRecord) (decimals : ℕ) : List FitRecord :=
  ((df.map FitRecord.replaceInf).filter
    (fun r => !r.hasNa)).map (FitRecord.roundError decimals)

/-- `reduce_results_df(df, decimals)` from `fit.py`: replace the
infinities with the missing marker, drop the rows with a missing
field, round the `error` column, sort by `time`, drop the duplicate
`error` values keeping the first (fastest) row, sort by `error`,
renumber the index (inherent in the list representation). -/
def reduce_results_df (df : List FitRecord) (decimals : ℕ) :
    List FitRecord :=
  List.insertionSort errorLe
    (dropDupError (List.insertionSort timeLe (cleanStage df decimals)))

/-- A parameter mapping held by one model object on the heap. -/
abbrev ParamMap := List (String × PVal)

/-- The heap of model objects: address `a` holds the `params` of the
object allocated at `a`. -/
abbrev Store := List ParamMap

/-- `copy.deepcopy(base_model)` in a heap model: allocate a fresh
address holding a copy of the base object's data and return it;
the base object's cell is untouched. -/
def deepcopyH (st : Store) (a : ℕ) : Store × ℕ :=
  (st ++ [st.getD a []], st.length)

/-- Heap model of `train_model`'s object handling (lines 92-104 of
`fit.py`): deep-copy the base model, then run the external `fit`
method on the copy.  `fitH` is the receiver-local behaviour of
`model.fit` (per the external interface it transforms its receiver's
parameters and returns the receiver); on success the fitted object's
address is returned in the record, on a caught failure the record
holds no model. -/
def train_model_heap (st : Store) (base : ℕ)
    (fitH : ParamMap → Except PyError ParamMap) : Store × Option ℕ :=
  let p := deepcopyH st base
  match fitH (p.1.getD p.2 []) with
  | Except.ok newParams => (p.1.set p.2 newParams, some p.2)
  | Except.error _ => (p.1, none)

/-- Mutation of the parameters of the object at address `a` (what a
caller does when it mutates the returned fitted model's `params`). -/
def setParams (st : Store) (a : ℕ) (ps : ParamMap) : Store :=
  st.set a ps

/-- Well-formedness of a frame: every column has exactly one value
per index entry (the pandas `DataFrame` shape invariant). -/
def Frame.wf (X : Frame) : Prop :=
  ∀ c ∈ X.cols, c.2.length = X.index.length

/-- Concrete fixtures used to evaluate the theorems on explicit
inputs.  A prediction object. -/
def wPred : Prediction := ⟨[PVal.num 2, PVal.num 3]⟩

/-- A fitted model: the object the external `fit` returns. -/
def wFitted : DGModel :=
  DGModel.mk [("A0", PVal.num 3)]
    (fun _ _ _ _ => Except.error PyError.valueError)
    (fun _ => Except.ok wPred)

/-- A base model whose `fit` succeeds, returning `wFitted`. -/
def wBase : DGModel :=
  DGModel.mk [("A0", PVal.nan), ("B", PVal.nan)]
    (fun _ _ _ _ => Except.ok wFitted)
    (fun _ => Except.error PyError.valueError)

/-- A base model whose `fit` always raises `ValueError`. -/
def wBaseFailing : DGModel :=
  DGModel.mk [("A0", PVal.nan)]
    (fun _ _ _ _ => Except.error PyError.valueError)
    (fun _ => Except.error PyError.valueError)

/-- A base model whose flagged parameter has no matching column. -/
def wBaseNoCol : DGModel :=
  DGModel.mk [("C0", PVal.nan)]
    (fun _ _ _ _ => Except.ok wFitted)
    (fun _ => Except.ok wPred)

/-- A two-row training window with columns `A0` and `B`; the first
row has `A0 = 12.5`. -/
def wX : Frame :=
  ⟨[PVal.num 0, PVal.num 1],
   [("A0", [PVal.num (25 / 2), PVal.num 3]), ("B", [PVal.num 4, PVal.num 5])]⟩

/-- Target values aligned with `wX`. -/
def wY : Series := ⟨[PVal.num 0, PVal.num 1], [PVal.num 1, PVal.num 2]⟩

/-- An error metric that always scores `1/2`. -/
def wEm : Metric := fun _ _ => Except.ok (PVal.num (1 / 2))

/-- The single row `train_model wBase wX wY wEm "nelder" 0 1`
produces. -/
def wRow : FitRecord :=
  { start_date := PVal.num 0, end_date := PVal.num 1,
    model := some wFitted, model_result := some wPred,
    time := PVal.num (1 - 0), method := "nelder",
    error := PVal.num (1 / 2) }

/-- A clean result row for the reducer fixtures: `err` and `t` give
the `error` and `time` cells. -/
def mkRow (err t : PVal) : FitRecord :=
  { start_date := PVal.num 0, end_date := PVal.num 1,
    model := some wFitted, model_result := some wPred,
    time := t, method := "nelder", error := err }

/-- A slow row whose error rounds to `0.123456` at 6 decimals. -/
def wSlow : FitRecord := mkRow (PVal.num (Rat.divInt 1234555 10000000)) (PVal.num 2)

/-- A fast row whose error rounds to the same `0.123456`. -/
def wFast : FitRecord := mkRow (PVal.num (Rat.divInt 1234556 10000000)) (PVal.num 1)

/-- A row with an infinite error score. -/
def wInfErr : FitRecord := mkRow PVal.inf (PVal.num 3)

/-- A failed-fit row: `model`, `model_result` and `error` are the
missing marker. -/
def wFailRow : FitRecord :=
  { start_date := PVal.num 0, end_date := PVal.num 1,
    model := none, model_result := none,
    time := PVal.num 4, method := "nelder", error := PVal.nan }

/-- A row with an infinite elapsed time but a finite error. -/
def wInfTime : FitRecord := mkRow (PVal.num (Rat.divInt 7 10)) PVal.inf

/-- The reducer fixture table. -/
def wDf : List FitRecord := [wSlow, wFast, wInfErr, wFailRow, wInfTime]

/-- The heap fixture: one allocated model object. -/
def wStore : Store := [[("A0", PVal.num 1)]]

/-- A receiver-local `fit` behaviour for the heap fixture. -/
def wFitH : ParamMap → Except PyError ParamMap :=
  fun _ => Except.ok [("A0", PVal.num 9)]

/-- The failure row `train_model wBaseFailing wX wY wEm "nelder" 0 1`
produces. -/
def wRowF : FitRecord :=
  { start_date := PVal.num 0, end_date := PVal.num 1, model := none,
    model_result := none, time := PVal.num (1 - 0), method := "nelder",
    error := PVal.nan }

/-- The model list of the batch fixtures. -/
def wModels : List DGModel := [wBase, wBaseFailing]

/-- Timer readings of the batch fixtures: every task takes one
second. -/
def wTimes : ℕ → ℚ × ℚ := fun _ => (0, 1)

/-- The table `train_models wModels wX wY wEm none "nelder" ...`
produces: one row per model over the full window. -/
def wDfT : List FitRecord := [wRow, wRowF]

theorem exc_bind_ok {α β : Type} (a : α) (f : α → Except PyError β) :
    (Except.ok a >>= f : Except PyError β) = f a := rfl

theorem exc_bind_error {α β : Type} (e : PyError) (f : α → Except PyError β) :
    ((Except.error e : Except PyError α) >>= f) = Except.error e := rfl

theorem indexFirst_eq_ok {X : Frame} {v : PVal} :
    X.indexFirst = Except.ok v ↔ X.index.head? = some v := by
  obtain ⟨idx, cols⟩ := X
  cases idx <;> simp [Frame.indexFirst]

theorem indexLast_eq_ok {X : Frame} {v : PVal} :
    X.indexLast = Except.ok v ↔ X.index.getLast? = some v := by
  unfold Frame.indexLast
  split
  · next h => simp [h]
  · next w h => simp [h]

theorem failRow_ok {X : Frame} {method : String} {t1 t2 : ℚ}
    {rows : List FitRecord}
    (h : failRow X method t1 t2 = Except.ok rows) :
    ∃ s e, X.index.head? = some s ∧ X.index.getLast? = some e ∧
      rows = [{ start_date := s, end_date := e, model := none,
                model_result := none, time := PVal.num (t2 - t1),
                method := method, error := PVal.nan }] := by
  unfold failRow at h
  cases hs : X.indexFirst with
  | error e => rw [hs, exc_bind_error] at h; exact Except.noConfusion h
  | ok s =>
    simp only [hs, exc_bind_ok] at h
    cases he : X.indexLast with
    | error e => rw [he, exc_bind_error] at h; exact Except.noConfusion h
    | ok e =>
      simp only [he, exc_bind_ok, Except.ok.injEq] at h
      exact ⟨s, e, indexFirst_eq_ok.mp hs, indexLast_eq_ok.mp he, h.symm⟩

theorem failRow_ok_intro {X : Frame} {method : String} {t1 t2 : ℚ}
    {s e : PVal} (hs : X.index.head? = some s)
    (he : X.index.getLast? = some e) :
    failRow X method t1 t2 = Except.ok
      [{ start_date := s, end_date := e, model := none,
         model_result := none, time := PVal.num (t2 - t1),
         method := method, error := PVal.nan }] := by
  unfold failRow
  rw [show X.indexFirst = Except.ok s from indexFirst_eq_ok.mpr hs,
      show X.indexLast = Except.ok e from indexLast_eq_ok.mpr he]
  rfl

theorem successRows_ok {fitted : DGModel} {X : Frame} {y : Series}
    {em : Metric} {method : String} {t1 t2 : ℚ} {rows : List FitRecord}
    (h : successRows fitted X y em method t1 t2 = Except.ok rows) :
    ∃ pr s e err, fitted.predictFn X = Except.ok pr ∧
      X.index.head? = some s ∧ X.index.getLast? = some e ∧
      em y.values pr.Z = Except.ok err ∧
      rows = [{ start_date := s, end_date := e, model := some fitted,
                model_result := some pr, time := PVal.num (t2 - t1),
                method := method, error := err }] := by
  unfold successRows at h
  cases hp : fitted.predictFn X with
  | error e => rw [hp, exc_bind_error] at h; exact Except.noConfusion h
  | ok pr =>
    simp only [hp, exc_bind_ok] at h
    cases hs : X.indexFirst with
    | error e => rw [hs, exc_bind_error] at h; exact Except.noConfusion h
    | ok s =>
      simp only [hs, exc_bind_ok] at h
      cases he : X.indexLast with
      | error e => rw [he, exc_bind_error] at h; exact Except.noConfusion h
      | ok e =>
        simp only [he, exc_bind_ok] at h
        cases herr : em y.values pr.Z with
        | error e0 => rw [herr, exc_bind_error] at h; exact Except.noConfusion h
        | ok err =>
          simp only [herr, exc_bind_ok, Except.ok.injEq] at h
          exact ⟨pr, s, e, err, rfl, indexFirst_eq_ok.mp hs,
                 indexLast_eq_ok.mp he, herr, h.symm⟩

theorem train_model_def (base : DGModel) (X : Frame) (y : Series)
    (em : Metric) (method : String) (t1 t2 : ℚ) :
    train_model base X y em method t1 t2 =
      match fitStage base X y method with
      | Except.error PyError.valueError => failRow X method t1 t2
      | Except.error e => Except.error e
      | Except.ok fitted => successRows fitted X y em method t1 t2 := rfl

theorem train_model_fail_eq {base : DGModel} {X : Frame} {y : Series}
    {em : Metric} {method : String} {t1 t2 : ℚ}
    (hf : fitStage base X y method = Except.error PyError.valueError) :
    train_model base X y em method t1 t2 = failRow X method t1 t2 := by
  rw [train_model_def, hf]

theorem train_model_err_eq {base : DGModel} {X : Frame} {y : Series}
    {em : Metric} {method : String} {t1 t2 : ℚ} {e : PyError}
    (hf : fitStage base X y method = Except.error e)
    (hne : e ≠ PyError.valueError) :
    train_model base X y em method t1 t2 = Except.error e := by
  rw [train_model_def, hf]
  cases e with
  | valueError => exact absurd rfl hne
  | keyError => rfl
  | indexError => rfl

theorem train_model_ok_eq {base : DGModel} {X : Frame} {y : Series}
    {em : Metric} {method : String} {t1 t2 : ℚ} {fitted : DGModel}
    (hf : fitStage base X y method = Except.ok fitted) :
    train_model base X y em method t1 t2 =
      successRows fitted X y em method t1 t2 := by
  rw [train_model_def, hf]

theorem train_model_ok_elim {base : DGModel} {X : Frame} {y : Series}
    {em : Metric} {method : String} {t1 t2 : ℚ} {rows : List FitRecord}
    (h : train_model base X y em method t1 t2 = Except.ok rows) :
    ∃ r, rows = [r] ∧ X.index.head? = some r.start_date ∧
      X.index.getLast? = some r.end_date ∧ r.method = method ∧
      r.time = PVal.num (t2 - t1) := by
  cases hf : fitStage base X y method with
  | error e =>
    cases e with
    | valueError =>
      rw [train_model_fail_eq hf] at h
      obtain ⟨s, en, hs, he, hr⟩ := failRow_ok h
      exact ⟨_, hr, hs, he, rfl, rfl⟩
    | keyError =>
      rw [train_model_err_eq hf (by decide)] at h
      exact Except.noConfusion h
    | indexError =>
      rw [train_model_err_eq hf (by decide)] at h
      exact Except.noConfusion h
  | ok fitted =>
    rw [train_model_ok_eq hf] at h
    obtain ⟨pr, s, en, err, _, hs, he, _, hr⟩ := successRows_ok h
    exact ⟨_, hr, hs, he, rfl, rfl⟩

/-- Claim C1: for every base model and every non-empty training
window, `train_model` returns a single-row result table whose
`start_date` field equals the first value of the window's index and
whose `end_date` field equals the last value of the window's index,
in both the success and the tolerated-failure case (every returned
table is of this shape, whichever branch produced it). -/
theorem C1_train_model_single_row_dates
    (base_model : DGModel) (X_train : Frame) (y_train : Series)
    (error_metric : Metric) (method : String) (t1 t2 : ℚ)
    (rows : List FitRecord)
    (h : train_model base_model X_train y_train error_metric method t1 t2 =
      Except.ok rows) :
    ∃ r, rows = [r] ∧ X_train.index.head? = some r.start_date ∧
      X_train.index.getLast? = some r.end_date := by
  obtain ⟨r, hr, hs, he, _, _⟩ := train_model_ok_elim h
  exact ⟨r, hr, hs, he⟩

/-- Witness for C1 at a concrete successful fit. -/
theorem C1_witness :
    ∃ r, [wRow] = [r] ∧ wX.index.head? = some r.start_date ∧
      wX.index.getLast? = some r.end_date :=
  C1_train_model_single_row_dates wBase wX wY wEm "nelder" 0 1 [wRow] (by rfl)

/-- Claim C2: if the model's fit raises `ValueError`, `train_model`
catches it and returns one record whose `model`, `model_result` and
`error` fields are all the missing marker, while the start/end
timestamps, a non-negative elapsed time (the timer being monotone,
`t1 ≤ t2`) and the method name are still recorded; and no other
exception type is caught — any other exception propagates out of
`train_model`. -/
theorem C2_train_model_valueerror_policy
    (base_model : DGModel) (X_train : Frame) (y_train : Series)
    (error_metric : Metric) (method : String) (t1 t2 : ℚ) :
    (fitStage base_model X_train y_train method =
        Except.error PyError.valueError →
      X_train.index ≠ [] → t1 ≤ t2 →
      ∃ r, train_model base_model X_train y_train error_metric method t1 t2 =
          Except.ok [r] ∧
        r.model = none ∧ r.model_result = none ∧ r.error = PVal.nan ∧
        r.method = method ∧ r.time = PVal.num (t2 - t1) ∧ 0 ≤ t2 - t1 ∧
        X_train.index.head? = some r.start_date ∧
        X_train.index.getLast? = some r.end_date) ∧
    (∀ e, e ≠ PyError.valueError →
      fitStage base_model X_train y_train method = Except.error e →
      train_model base_model X_train y_train error_metric method t1 t2 =
        Except.error e) := by
  constructor
  · intro hf hne ht
    have hs : X_train.index.head? = some (X_train.index.head hne) :=
      List.head?_eq_head hne
    have he : X_train.index.getLast? = some (X_train.index.getLast hne) :=
      List.getLast?_eq_getLast _ hne
    refine ⟨{ start_date := X_train.index.head hne,
              end_date := X_train.index.getLast hne,
              model := none, model_result := none,
              time := PVal.num (t2 - t1), method := method,
              error := PVal.nan }, ?_, rfl, rfl, rfl, rfl, rfl,
            sub_nonneg.mpr ht, hs, he⟩
    rw [train_model_fail_eq hf]
    exact failRow_ok_intro hs he
  · intro e hne hf
    exact train_model_err_eq hf hne

/-- Witness for C2: a concrete always-failing fit yields the failure
record, and a concrete `KeyError` from the fit stage propagates. -/
theorem C2_witness :
    (∃ r, train_model wBaseFailing wX wY wEm "nelder" 0 1 =
        Except.ok [r] ∧
      r.model = none ∧ r.model_result = none ∧ r.error = PVal.nan ∧
      r.method = "nelder" ∧ r.time = PVal.num (1 - 0) ∧
      (0 : ℚ) ≤ 1 - 0 ∧
      wX.index.head? = some r.start_date ∧
      wX.index.getLast? = some r.end_date) ∧
    train_model wBaseNoCol wX wY wEm "nelder" 0 1 =
      Except.error PyError.keyError :=
  ⟨(C2_train_model_valueerror_policy wBaseFailing wX wY wEm "nelder" 0 1).1
      (by rfl) (by decide) (by decide),
   (C2_train_model_valueerror_policy wBaseNoCol wX wY wEm "nelder" 0 1).2
      PyError.keyError (by decide) (by rfl)⟩

/-- Claim C9 (implicit): the tolerated-failure catch of `train_model`
encloses the initial-condition extraction (and the restructuring of
the feature window) as well as the fit call: whenever
`get_ic_params` raises, the fit method is never consulted, a
`ValueError` is converted into the failure record, and any other
exception propagates. -/
theorem C9_catch_scope_ic_params
    (base_model : DGModel) (X_train : Frame) (y_train : Series)
    (error_metric : Metric) (method : String) (t1 t2 : ℚ) (e : PyError)
    (h : get_ic_params base_model X_train = Except.error e) :
    train_model base_model X_train y_train error_metric method t1 t2 =
      (if e = PyError.valueError then failRow X_train method t1 t2
       else Except.error e) := by
  have hf : fitStage base_model X_train y_train method = Except.error e := by
    unfold fitStage
    rw [h, exc_bind_error]
  cases e with
  | valueError => rw [train_model_fail_eq hf]; simp
  | keyError => rw [train_model_err_eq hf (by decide)]; simp
  | indexError => rw [train_model_err_eq hf (by decide)]; simp

/-- Witness for C9: a flagged parameter without a matching column
raises `KeyError` inside `get_ic_params`, which propagates untouched
(the `base_model.fit` of the fixture would have succeeded). -/
theorem C9_witness :
    train_model wBaseNoCol wX wY wEm "nelder" 0 1 =
      (if PyError.keyError = PyError.valueError
       then failRow wX "nelder" 0 1 else Except.error PyError.keyError) :=
  C9_catch_scope_ic_params wBaseNoCol wX wY wEm "nelder" 0 1
    PyError.keyError (by rfl)

theorem iloc0_ok_elim {X : Frame} {k : String} {v : PVal}
    (h : X.iloc0 k = Except.ok v) :
    X.index ≠ [] ∧
    ∃ c, X.cols.find? (fun col => col.1 == k) = some c ∧
      c.2.head? = some v := by
  obtain ⟨idx, cols⟩ := X
  cases idx with
  | nil => exact Except.noConfusion h
  | cons a l =>
    simp only [Frame.iloc0] at h
    cases hf : List.find? (fun c => c.1 == k) cols with
    | none => rw [hf] at h; exact Except.noConfusion h
    | some c =>
      rw [hf] at h
      obtain ⟨nm, vs⟩ := c
      cases vs with
      | nil => exact Except.noConfusion h
      | cons v0 vrest =>
        simp only [Except.ok.injEq] at h
        subst h
        exact ⟨by simp, ⟨(nm, v0 :: vrest), rfl, rfl⟩⟩

theorem icStep_fold_spec (X : Frame) (ps : List (String × PVal)) :
    ∀ acc : List (String × PVal),
      (∀ p ∈ ps, p.1.data.contains '0' = true →
        ∃ v, X.iloc0 p.1 = Except.ok v) →
      ∃ l, ps.foldlM (icStep X) acc = Except.ok l ∧
        l.map Prod.fst = acc.map Prod.fst ++
          (ps.map Prod.fst).filter (fun k => k.data.contains '0') ∧
        ∀ kv ∈ l, kv ∈ acc ∨ X.iloc0 kv.1 = Except.ok kv.2 := by
  induction ps with
  | nil =>
    intro acc _
    exact ⟨acc, rfl, by simp, fun kv hkv => Or.inl hkv⟩
  | cons p ps ih =>
    intro acc hc
    rw [List.foldlM_cons]
    cases hflag : p.1.data.contains '0' with
    | true =>
      obtain ⟨v, hv⟩ := hc p (List.mem_cons_self p ps) hflag
      have hstep : icStep X acc p = Except.ok (acc ++ [(p.1, v)]) := by
        unfold icStep
        rw [if_pos hflag, hv, exc_bind_ok]
        rfl
      rw [hstep, exc_bind_ok]
      obtain ⟨l, hl, hkeys, hmem⟩ :=
        ih (acc ++ [(p.1, v)])
          (fun q hq hfq => hc q (List.mem_cons_of_mem p hq) hfq)
      refine ⟨l, hl, ?_, ?_⟩
      · rw [hkeys, List.map_cons, List.filter_cons, if_pos hflag,
            List.map_append]
        simp [List.append_assoc]
      · intro kv hkv
        rcases hmem kv hkv with hin | hok
        · rcases List.mem_append.mp hin with hin' | hin'
          · exact Or.inl hin'
          · simp only [List.mem_singleton] at hin'
            subst hin'
            exact Or.inr hv
        · exact Or.inr hok
    | false =>
      have hstep : icStep X acc p = Except.ok acc := by
        unfold icStep
        rw [if_neg (by rw [hflag]; simp)]
        rfl
      rw [hstep, exc_bind_ok]
      obtain ⟨l, hl, hkeys, hmem⟩ :=
        ih acc (fun q hq hfq => hc q (List.mem_cons_of_mem p hq) hfq)
      refine ⟨l, hl, ?_, hmem⟩
      rw [hkeys, List.map_cons, List.filter_cons,
          if_neg (by rw [hflag]; simp)]

/-- Claim C7: `get_ic_params`, whenever every flagged parameter name
has a matching non-empty column, returns a mapping whose keys are
exactly those parameter names containing the character `'0'` and
whose value for each such name is the value in the first row of the
window's column of that name; a model with no flagged parameter
names yields the empty mapping. -/
theorem C7_get_ic_params_spec (model : DGModel) (X_train : Frame)
    (hc : ∀ p ∈ model.params, p.1.data.contains '0' = true →
      ∃ v, X_train.iloc0 p.1 = Except.ok v) :
    ∃ l, get_ic_params model X_train = Except.ok l ∧
      l.map Prod.fst =
        (model.params.map Prod.fst).filter (fun k => k.data.contains '0') ∧
      ∀ kv ∈ l, ∃ c, X_train.cols.find? (fun col => col.1 == kv.1) = some c ∧
        c.2.head? = some kv.2 := by
  obtain ⟨l, hl, hkeys, hmem⟩ := icStep_fold_spec X_train model.params [] hc
  refine ⟨l, hl, by simpa using hkeys, ?_⟩
  intro kv hkv
  rcases hmem kv hkv with hin | hok
  · exact absurd hin (List.not_mem_nil kv)
  · exact (iloc0_ok_elim hok).2

/-- Witness for C7: the spec's example — params `A0` (flagged) and
`B`, first row `A0 = 12.5` — and the no-flagged-parameter edge
case. -/
theorem C7_witness :
    (∃ l, get_ic_params wBase wX = Except.ok l ∧
      l.map Prod.fst =
        (wBase.params.map Prod.fst).filter (fun k => k.data.contains '0') ∧
      ∀ kv ∈ l, ∃ c, wX.cols.find? (fun col => col.1 == kv.1) = some c ∧
        c.2.head? = some kv.2) ∧
    (∃ l, get_ic_params wFitted wX = Except.ok l ∧
      l.map Prod.fst =
        (wFitted.params.map Prod.fst).filter (fun k => k.data.contains '0') ∧
      ∀ kv ∈ l, ∃ c, wX.cols.find? (fun col => col.1 == kv.1) = some c ∧
        c.2.head? = some kv.2) :=
  ⟨C7_get_ic_params_spec wBase wX
      (by
        intro p hp hflag
        fin_cases hp
        · exact ⟨PVal.num (25 / 2), rfl⟩
        · exact absurd hflag (by decide)),
   C7_get_ic_params_spec wFitted wX
      (by
        intro p hp hflag
        fin_cases hp
        exact ⟨PVal.num (25 / 2), rfl⟩)⟩

theorem train_model_heap_def (st : Store) (base : ℕ)
    (fitH : ParamMap → Except PyError ParamMap) :
    train_model_heap st base fitH =
      match fitH ((st ++ [st.getD base []]).getD st.length []) with
      | Except.ok newParams =>
        ((st ++ [st.getD base []]).set st.length newParams, some st.length)
      | Except.error _ => (st ++ [st.getD base []], none) := rfl

/-- Claim C8: `train_model` never mutates the base model — it
deep-copies it before fitting, so the base object's `params` cell is
unchanged after the call, and mutating the parameters of the fitted
model contained in the returned record does not alter the base
object's `params`. -/
theorem C8_deepcopy_isolation (st : Store) (base : ℕ)
    (fitH : ParamMap → Except PyError ParamMap) (hb : base < st.length) :
    ((train_model_heap st base fitH).1.getD base [] = st.getD base []) ∧
    (∀ a ps, (train_model_heap st base fitH).2 = some a →
      (setParams (train_model_heap st base fitH).1 a ps).getD base [] =
        st.getD base []) := by
  have hne : st.length ≠ base := (Nat.ne_of_lt hb).symm
  rw [train_model_heap_def]
  cases hf : fitH ((st ++ [st.getD base []]).getD st.length []) with
  | ok newParams =>
    constructor
    · simp [List.getElem?_set_ne hne, List.getElem?_append_left hb]
    · intro a ps ha
      simp only [Option.some.injEq] at ha
      subst ha
      simp [setParams, List.getElem?_set_ne hne,
            List.getElem?_append_left hb]
  | error e =>
    constructor
    · simp [List.getElem?_append_left hb]
    · intro a ps ha
      exact Option.noConfusion ha

/-- Witness for C8 on a one-object heap: the base cell at address 0
is unchanged by the call and by a later mutation of the fitted
object at address 1. -/
theorem C8_witness :
    ((train_model_heap wStore 0 wFitH).1.getD 0 [] = wStore.getD 0 []) ∧
    (setParams (train_model_heap wStore 0 wFitH).1 1
        [("A0", PVal.num 5)]).getD 0 [] = wStore.getD 0 [] :=
  ⟨(C8_deepcopy_isolation wStore 0 wFitH (by decide)).1,
   (C8_deepcopy_isolation wStore 0 wFitH (by decide)).2 1
      [("A0", PVal.num 5)] (by rfl)⟩

theorem dedupGo_mem {seen : List PVal} {l : List FitRecord} {r : FitRecord}
    (h : r ∈ dedupGo seen l) : r ∈ l ∧ r.error ∉ seen := by
  induction l generalizing seen with
  | nil => simp [dedupGo] at h
  | cons x xs ih =>
    simp only [dedupGo] at h
    by_cases hx : x.error ∈ seen
    · rw [if_pos hx] at h
      obtain ⟨h1, h2⟩ := ih h
      exact ⟨List.mem_cons_of_mem x h1, h2⟩
    · rw [if_neg hx] at h
      rcases List.mem_cons.mp h with rfl | h'
      · exact ⟨List.mem_cons_self r xs, hx⟩
      · obtain ⟨h1, h2⟩ := ih h'
        exact ⟨List.mem_cons_of_mem x h1,
               fun hs => h2 (List.mem_cons_of_mem _ hs)⟩

theorem dedupGo_min_time :
    ∀ (l : List FitRecord) (seen : List PVal) (r : FitRecord),
      l.Pairwise (fun a b => a.time.key ≤ b.time.key) →
      r ∈ dedupGo seen l →
      ∀ s ∈ l, s.error = r.error → r.time.key ≤ s.time.key := by
  intro l
  induction l with
  | nil => intro seen r _ h; simp [dedupGo] at h
  | cons x xs ih =>
    intro seen r hp hr s hs hse
    rw [List.pairwise_cons] at hp
    obtain ⟨hx_le, hp'⟩ := hp
    simp only [dedupGo] at hr
    by_cases hx : x.error ∈ seen
    · rw [if_pos hx] at hr
      rcases List.mem_cons.mp hs with rfl | hs'
      · have : r.error ∈ seen := by rw [← hse]; exact hx
        exact absurd this (dedupGo_mem hr).2
      · exact ih seen r hp' hr s hs' hse
    · rw [if_neg hx] at hr
      rcases List.mem_cons.mp hr with rfl | hr'
      · rcases List.mem_cons.mp hs with rfl | hs'
        · exact le_refl _
        · exact hx_le s hs'
      · rcases List.mem_cons.mp hs with rfl | hs'
        · have : r.error ∈ s.error :: seen := by
            rw [← hse]; exact List.mem_cons_self _ _
          exact absurd this (dedupGo_mem hr').2
        · exact ih _ r hp' hr' s hs' hse

theorem dedupGo_errors_nodup :
    ∀ (l : List FitRecord) (seen : List PVal),
      ((dedupGo seen l).map (fun r => r.error)).Nodup := by
  intro l
  induction l with
  | nil => intro seen; simp [dedupGo]
  | cons x xs ih =>
    intro seen
    simp only [dedupGo]
    by_cases hx : x.error ∈ seen
    · rw [if_pos hx]; exact ih seen
    · rw [if_neg hx]
      simp only [List.map_cons, List.nodup_cons]
      refine ⟨?_, ih _⟩
      intro hmem
      obtain ⟨r, hr, hre⟩ := List.mem_map.mp hmem
      have : r.error ∈ x.error :: seen := by
        rw [hre]; exact List.mem_cons_self _ _
      exact (dedupGo_mem hr).2 this

theorem dedupGo_exists :
    ∀ (l : List FitRecord) (seen : List PVal) (x : FitRecord),
      x ∈ l → x.error ∉ seen →
      ∃ r ∈ dedupGo seen l, r.error = x.error := by
  intro l
  induction l with
  | nil => intro seen x h; cases h
  | cons y ys ih =>
    intro seen x hx hns
    simp only [dedupGo]
    by_cases hy : y.error ∈ seen
    · rw [if_pos hy]
      rcases List.mem_cons.mp hx with rfl | hx'
      · exact absurd hy hns
      · exact ih seen x hx' hns
    · rw [if_neg hy]
      rcases List.mem_cons.mp hx with rfl | hx'
      · exact ⟨x, List.mem_cons_self _ _, rfl⟩
      · by_cases hxy : x.error = y.error
        · exact ⟨y, List.mem_cons_self _ _, hxy.symm⟩
        · obtain ⟨r, hr, hre⟩ := ih (y.error :: seen) x hx'
            (by
              intro hmem
              rcases List.mem_cons.mp hmem with h1 | h2
              · exact hxy h1
              · exact hns h2)
          exact ⟨r, List.mem_cons_of_mem y hr, hre⟩

theorem mem_cleanStage {df : List FitRecord} {d : ℕ} {r : FitRecord} :
    r ∈ cleanStage df d ↔
      ∃ s ∈ df, (FitRecord.replaceInf s).hasNa = false ∧
        r = FitRecord.roundError d (FitRecord.replaceInf s) := by
  constructor
  · intro h
    obtain ⟨a, ha, hfa⟩ := List.mem_map.mp h
    obtain ⟨ha', hp⟩ := List.mem_filter.mp ha
    obtain ⟨s, hs, hgs⟩ := List.mem_map.mp ha'
    subst hgs
    refine ⟨s, hs, ?_, hfa.symm⟩
    simpa using hp
  · rintro ⟨s, hs, hna, rfl⟩
    exact List.mem_map.mpr
      ⟨FitRecord.replaceInf s,
       List.mem_filter.mpr ⟨List.mem_map.mpr ⟨s, hs, rfl⟩, by simp [hna]⟩,
       rfl⟩

theorem mem_reduce {df : List FitRecord} {d : ℕ} {r : FitRecord}
    (h : r ∈ reduce_results_df df d) : r ∈ cleanStage df d := by
  unfold reduce_results_df at h
  have h1 := (List.mem_insertionSort errorLe).mp h
  have h2 := (dedupGo_mem h1).1
  exact (List.mem_insertionSort timeLe).mp h2

theorem hasNa_false_elim {r : FitRecord} (h : r.hasNa = false) :
    r.start_date ≠ PVal.nan ∧ r.end_date ≠ PVal.nan ∧ r.model ≠ none ∧
    r.model_result ≠ none ∧ r.time ≠ PVal.nan ∧ r.error ≠ PVal.nan := by
  simp only [FitRecord.hasNa, Bool.or_eq_false_iff, beq_eq_false_iff_ne,
             ne_eq, Option.isNone_eq_false_iff, Option.isSome_iff_ne_none] at h
  tauto

theorem replaceInfNan_not_inf (v : PVal) :
    v.replaceInfNan ≠ PVal.inf ∧ v.replaceInfNan ≠ PVal.ninf := by
  cases v <;> simp [PVal.replaceInfNan]

theorem pval_num_of_clean {v : PVal} (h1 : v ≠ PVal.nan)
    (h2 : v ≠ PVal.inf) (h3 : v ≠ PVal.ninf) : ∃ q, v = PVal.num q := by
  cases v with
  | nan => exact absurd rfl h1
  | inf => exact absurd rfl h2
  | ninf => exact absurd rfl h3
  | num q => exact ⟨q, rfl⟩

/-- Claim C5: in `reduce_results_df`, among records whose error
values round to the same value at the given precision, only the
record with the lowest elapsed time survives (each surviving record's
time is minimal in its rounded-error class, rounded-error values are
pairwise distinct in the output, and every clean class is
represented), and the final output is sorted ascending by rounded
error value (index renumbering is inherent in the list
representation). -/
theorem C5_reduce_dedup_fastest_sorted (df : List FitRecord) (d : ℕ) :
    List.Pairwise (fun a b => a.error.key ≤ b.error.key)
      (reduce_results_df df d) ∧
    (∀ r ∈ reduce_results_df df d, ∀ s ∈ df,
      (FitRecord.replaceInf s).hasNa = false →
      (FitRecord.roundError d (FitRecord.replaceInf s)).error = r.error →
      r.time.key ≤ (FitRecord.replaceInf s).time.key) ∧
    ((reduce_results_df df d).map (fun r => r.error)).Nodup ∧
    (∀ s ∈ df, (FitRecord.replaceInf s).hasNa = false →
      ∃ r ∈ reduce_results_df df d,
        r.error = (FitRecord.roundError d (FitRecord.replaceInf s)).error) := by
  refine ⟨?_, ?_, ?_, ?_⟩
  · exact List.sorted_insertionSort errorLe
      (dropDupError (List.insertionSort timeLe (cleanStage df d)))
  · intro r hr s hs hna herr
    unfold reduce_results_df at hr
    have hr1 := (List.mem_insertionSort errorLe).mp hr
    have hsorted : (List.insertionSort timeLe (cleanStage df d)).Pairwise
        (fun a b => a.time.key ≤ b.time.key) :=
      List.sorted_insertionSort timeLe (cleanStage df d)
    have hs' : FitRecord.roundError d (FitRecord.replaceInf s) ∈
        List.insertionSort timeLe (cleanStage df d) :=
      (List.mem_insertionSort timeLe).mpr (mem_cleanStage.mpr ⟨s, hs, hna, rfl⟩)
    exact dedupGo_min_time _ [] r hsorted hr1
      (FitRecord.roundError d (FitRecord.replaceInf s)) hs' herr
  · have hperm := (List.perm_insertionSort errorLe
      (dropDupError (List.insertionSort timeLe (cleanStage df d)))).map
      (fun r => r.error)
    exact hperm.nodup_iff.mpr (dedupGo_errors_nodup _ [])
  · intro s hs hna
    have hx : FitRecord.roundError d (FitRecord.replaceInf s) ∈
        List.insertionSort timeLe (cleanStage df d) :=
      (List.mem_insertionSort timeLe).mpr (mem_cleanStage.mpr ⟨s, hs, hna, rfl⟩)
    obtain ⟨r, hr, hre⟩ := dedupGo_exists _ [] _ hx (List.not_mem_nil _)
    exact ⟨r, (List.mem_insertionSort errorLe).mpr hr, hre⟩

/-- Witness for C5: two clean rows whose errors `0.1234555` and
`0.1234556` both round to `0.123456` at 6 decimals; only the faster
row survives, so its time is minimal. -/
theorem C5_witness :
    (FitRecord.roundError 6 (FitRecord.replaceInf wFast)).time.key ≤
      (FitRecord.replaceInf wSlow).time.key :=
  (C5_reduce_dedup_fastest_sorted wDf 6).2.1
    (FitRecord.roundError 6 (FitRecord.replaceInf wFast))
    (by
      rw [show reduce_results_df wDf 6 =
        [FitRecord.roundError 6 (FitRecord.replaceInf wFast)] from rfl]
      exact List.mem_cons_self _ _)
    wSlow (by unfold wDf; exact List.mem_cons_self _ _)
    (by rfl) (by rfl)

/-- Claim C6: `reduce_results_df` first replaces infinite values with
the missing marker and then drops every record with any missing
field: every output record has a finite error and present
`model`/`model_result` fields, a record with an infinite, missing or
absent field never passes the cleaning stage, and every output record
is the cleaned image of a clean input record. -/
theorem C6_reduce_drops_inf_and_missing (df : List FitRecord) (d : ℕ) :
    (∀ r ∈ reduce_results_df df d,
      (∃ q, r.error = PVal.num q) ∧ r.model ≠ none ∧
        r.model_result ≠ none) ∧
    (∀ s ∈ df,
      (s.error = PVal.inf ∨ s.error = PVal.ninf ∨ s.error = PVal.nan ∨
        s.model = none ∨ s.model_result = none) →
      (FitRecord.replaceInf s).hasNa = true) ∧
    (∀ r ∈ reduce_results_df df d,
      ∃ s ∈ df, (FitRecord.replaceInf s).hasNa = false ∧
        r = FitRecord.roundError d (FitRecord.replaceInf s)) := by
  refine ⟨?_, ?_, ?_⟩
  · intro r hr
    obtain ⟨s, _, hna, rfl⟩ := mem_cleanStage.mp (mem_reduce hr)
    obtain ⟨_, _, hm, hmr, _, herr⟩ := hasNa_false_elim hna
    obtain ⟨hi, hni⟩ := replaceInfNan_not_inf s.error
    obtain ⟨q, hq⟩ := pval_num_of_clean herr hi hni
    exact ⟨⟨roundTo d q, by
      simp [FitRecord.roundError, FitRecord.replaceInf] at hq ⊢
      rw [hq]
      rfl⟩, hm, hmr⟩
  · intro s _ hcase
    rcases hcase with h | h | h | h | h <;>
      simp [FitRecord.hasNa, FitRecord.replaceInf, PVal.replaceInfNan, h]
  · intro r hr
    exact mem_cleanStage.mp (mem_reduce hr)

/-- Witness for C6: a row with an infinite error and a failed-fit row
both fail the cleaning stage of the fixture table. -/
theorem C6_witness :
    (FitRecord.replaceInf wInfErr).hasNa = true ∧
    (FitRecord.replaceInf wFailRow).hasNa = true :=
  ⟨(C6_reduce_drops_inf_and_missing wDf 6).2.1 wInfErr
      (by
        unfold wDf
        exact List.mem_cons_of_mem _ (List.mem_cons_of_mem _
          (List.mem_cons_self _ _)))
      (Or.inl rfl),
   (C6_reduce_drops_inf_and_missing wDf 6).2.1 wFailRow
      (by
        unfold wDf
        exact List.mem_cons_of_mem _ (List.mem_cons_of_mem _
          (List.mem_cons_of_mem _ (List.mem_cons_self _ _))))
      (Or.inr (Or.inr (Or.inr (Or.inl rfl))))⟩

/-- Claim C10 (implicit): the infinity replacement of
`reduce_results_df` applies to every column, not only `error`: a
record with an infinite value in any of its value-typed fields (for
example an infinite elapsed time with a finite error) fails the
cleaning stage, and every output record has finite `start_date`,
`end_date`, `time` and `error` values. -/
theorem C10_replace_applies_to_all_columns (df : List FitRecord) (d : ℕ) :
    (∀ r ∈ reduce_results_df df d,
      (∃ q, r.start_date = PVal.num q) ∧ (∃ q, r.end_date = PVal.num q) ∧
      (∃ q, r.time = PVal.num q) ∧ (∃ q, r.error = PVal.num q)) ∧
    (∀ s ∈ df,
      (s.start_date = PVal.inf ∨ s.start_date = PVal.ninf ∨
       s.end_date = PVal.inf ∨ s.end_date = PVal.ninf ∨
       s.time = PVal.inf ∨ s.time = PVal.ninf) →
      (FitRecord.replaceInf s).hasNa = true) := by
  constructor
  · intro r hr
    obtain ⟨s, _, hna, rfl⟩ := mem_cleanStage.mp (mem_reduce hr)
    obtain ⟨hsd, hed, _, _, ht, herr⟩ := hasNa_false_elim hna
    refine ⟨?_, ?_, ?_, ?_⟩
    · exact pval_num_of_clean hsd (replaceInfNan_not_inf s.start_date).1
        (replaceInfNan_not_inf s.start_date).2
    · exact pval_num_of_clean hed (replaceInfNan_not_inf s.end_date).1
        (replaceInfNan_not_inf s.end_date).2
    · exact pval_num_of_clean ht (replaceInfNan_not_inf s.time).1
        (replaceInfNan_not_inf s.time).2
    · obtain ⟨q, hq⟩ := pval_num_of_clean herr
        (replaceInfNan_not_inf s.error).1 (replaceInfNan_not_inf s.error).2
      exact ⟨roundTo d q, by
        simp [FitRecord.roundError, FitRecord.replaceInf] at hq ⊢
        rw [hq]
        rfl⟩
  · intro s _ hcase
    rcases hcase with h | h | h | h | h | h <;>
      simp [FitRecord.hasNa, FitRecord.replaceInf, PVal.replaceInfNan, h]

/-- Witness for C10: the fixture row with an infinite elapsed time
but a finite error fails the cleaning stage. -/
theorem C10_witness : (FitRecord.replaceInf wInfTime).hasNa = true :=
  (C10_replace_applies_to_all_columns wDf 6).2 wInfTime
    (by
      unfold wDf
      exact List.mem_cons_of_mem _ (List.mem_cons_of_mem _
        (List.mem_cons_of_mem _ (List.mem_cons_of_mem _
          (List.mem_cons_self _ _)))))
    (Or.inr (Or.inr (Or.inr (Or.inr (Or.inl rfl)))))

theorem exc_map_ok {α β : Type} (a : α) (f : α → β) :
    (Except.ok a : Except PyError α).map f = Except.ok (f a) := rfl

theorem exc_map_error {α β : Type} (e : PyError) (f : α → β) :
    (Except.error e : Except PyError α).map f = Except.error e := rfl

theorem mapM_ok_of_forall {A B : Type} {f : A → Except PyError B}
    {g : A → B} :
    ∀ {l : List A}, (∀ x ∈ l, f x = Except.ok (g x)) →
      l.mapM f = Except.ok (l.map g) := by
  intro l
  induction l with
  | nil => intro _; rfl
  | cons a l ih =>
    intro h
    rw [List.mapM_cons, h a (List.mem_cons_self a l)]
    simp only [exc_bind_ok]
    rw [ih (fun x hx => h x (List.mem_cons_of_mem a hx))]
    simp only [exc_bind_ok]
    rfl

theorem mapM_ok_forall_mem {A B : Type} {f : A → Except PyError B}
    {l : List A} {ys : List B} (h : l.mapM f = Except.ok ys) :
    ∀ x ∈ l, ∃ y, f x = Except.ok y := by
  induction l generalizing ys with
  | nil => intro x hx; cases hx
  | cons a l ih =>
    rw [List.mapM_cons] at h
    cases hfa : f a with
    | error e =>
      rw [hfa] at h
      simp only [exc_bind_error] at h
      exact Except.noConfusion h
    | ok y =>
      rw [hfa] at h
      simp only [exc_bind_ok] at h
      cases hml : l.mapM f with
      | error e =>
        rw [hml] at h
        simp only [exc_bind_error] at h
        exact Except.noConfusion h
      | ok ys' =>
        rw [hml] at h
        simp only [exc_bind_ok] at h
        intro x hx
        rcases List.mem_cons.mp hx with rfl | hx'
        · exact ⟨y, hfa⟩
        · exact ih hml x hx'

theorem mapM_ok_char {A B : Type} {f : A → Except PyError B}
    {l : List A} {ys : List B} (h : l.mapM f = Except.ok ys) :
    ys.length = l.length ∧
    ∀ (i : ℕ) (x : A), l[i]? = some x →
      ∃ y, ys[i]? = some y ∧ f x = Except.ok y := by
  induction l generalizing ys with
  | nil =>
    have : ys = [] := by
      have : (Except.ok [] : Except PyError (List B)) = Except.ok ys := h
      simpa using this.symm
    subst this
    exact ⟨rfl, fun i x hx => by simp at hx⟩
  | cons a l ih =>
    rw [List.mapM_cons] at h
    cases hfa : f a with
    | error e =>
      rw [hfa] at h
      simp only [exc_bind_error] at h
      exact Except.noConfusion h
    | ok y =>
      rw [hfa] at h
      simp only [exc_bind_ok] at h
      cases hml : l.mapM f with
      | error e =>
        rw [hml] at h
        simp only [exc_bind_error] at h
        exact Except.noConfusion h
      | ok ys' =>
        rw [hml] at h
        simp only [exc_bind_ok] at h
        have hys : ys = y :: ys' := by
          have : (Except.ok (y :: ys') : Except PyError (List B)) =
            Except.ok ys := h
          simpa using this.symm
        subst hys
        obtain ⟨hlen, hpt⟩ := ih hml
        refine ⟨by simp [hlen], ?_⟩
        intro i x hx
        cases i with
        | zero =>
          simp only [List.getElem?_cons_zero, Option.some.injEq] at hx
          subst hx
          exact ⟨y, by simp, hfa⟩
        | succ i =>
          simp only [List.getElem?_cons_succ] at hx ⊢
          exact hpt i x hx

theorem lookup_map_pair {B : Type} (g : ℕ → B) :
    ∀ (order : List ℕ) (j : ℕ), j ∈ order →
      (order.map (fun i => (i, g i))).lookup j = some (g j) := by
  intro order
  induction order with
  | nil => intro j h; cases h
  | cons i rest ih =>
    intro j hj
    by_cases hij : j = i
    · subst hij
      simp [List.lookup]
    · have hj' : j ∈ rest := by
        rcases List.mem_cons.mp hj with h | h
        · exact absurd h hij
        · exact h
      have hbeq : (j == i) = false := by
        simp [hij]
      simp only [List.map_cons, List.lookup, hbeq]
      exact ih j hj'

theorem filterMap_eq_map_of_some {A B : Type} {f : A → Option B}
    {g : A → B} :
    ∀ {l : List A}, (∀ x ∈ l, f x = some (g x)) →
      l.filterMap f = l.map g := by
  intro l
  induction l with
  | nil => intro _; rfl
  | cons a l ih =>
    intro h
    rw [List.filterMap_cons, h a (List.mem_cons_self a l), List.map_cons,
        ih (fun x hx => h x (List.mem_cons_of_mem a hx))]

theorem range_map_getD {B : Type} (d : B) :
    ∀ (l : List B), (List.range l.length).map (fun i => l.getD i d) = l := by
  intro l
  induction l with
  | nil => rfl
  | cons b bs ih =>
    rw [List.length_cons, List.range_succ_eq_map, List.map_cons,
        List.map_map]
    have : ((fun i => (b :: bs).getD i d) ∘ Nat.succ) =
        (fun i => bs.getD i d) := by
      funext i
      simp [List.getD_cons_succ]
    rw [this, ih]
    simp

theorem reassemble_map {n : ℕ} {order : List ℕ} (g : ℕ → List FitRecord)
    (hmem : ∀ j, j < n → j ∈ order) :
    reassemble n (order.map (fun i => (i, g i))) = (List.range n).map g := by
  unfold reassemble
  apply filterMap_eq_map_of_some
  intro j hj
  exact lookup_map_pair g order j (hmem j (List.mem_range.mp hj))

theorem train_models_def {α : Type} (models : List DGModel) (X_train : Frame)
    (y_train : Series) (error_metric : Metric)
    (splits : Option (List (α × List ℕ))) (method : String)
    (n_jobs verbose : ℤ) (times : ℕ → ℚ × ℚ) (order : List ℕ) :
    train_models models X_train y_train error_metric splits method
        n_jobs verbose times order =
      (if n_jobs ≠ 1 then
        (execInOrder
            (taskAt X_train y_train error_metric method times
              (taskList models (effIdxLists splits X_train.index.length)))
            order).map
          (fun completed =>
            (reassemble
              (taskList models (effIdxLists splits X_train.index.length)).length
              completed).flatten)
      else
        ((taskList models (effIdxLists splits X_train.index.length)).enum.mapM
          (fun p =>
            runTask X_train y_train error_metric method times p.1 p.2)).map
          List.flatten) := rfl

theorem taskAt_eq_of_get {X : Frame} {y : Series} {em : Metric}
    {method : String} {times : ℕ → ℚ × ℚ}
    {tasks : List (DGModel × List ℕ)} {i : ℕ} {t : DGModel × List ℕ}
    (h : tasks[i]? = some t) :
    taskAt X y em method times tasks i = runTask X y em method times i t := by
  unfold taskAt
  rw [List.get?_eq_getElem?, h]

theorem runTask_ok_elim {X : Frame} {y : Series} {em : Metric}
    {method : String} {times : ℕ → ℚ × ℚ} {i : ℕ}
    {t : DGModel × List ℕ} {tb : List FitRecord}
    (h : runTask X y em method times i t = Except.ok tb) :
    ∃ Xs ys r, X.ilocRows t.2 = Except.ok Xs ∧
      y.ilocRows t.2 = Except.ok ys ∧ tb = [r] ∧
      train_model t.1 Xs ys em method (times i).1 (times i).2 =
        Except.ok [r] := by
  unfold runTask at h
  cases hX : X.ilocRows t.2 with
  | error e => rw [hX] at h; simp only [exc_bind_error] at h
               exact Except.noConfusion h
  | ok Xs =>
    rw [hX] at h
    simp only [exc_bind_ok] at h
    cases hy : y.ilocRows t.2 with
    | error e => rw [hy] at h; simp only [exc_bind_error] at h
                 exact Except.noConfusion h
    | ok ys =>
      rw [hy] at h
      simp only [exc_bind_ok] at h
      obtain ⟨r, hr, _, _, _, _⟩ := train_model_ok_elim h
      subst hr
      exact ⟨Xs, ys, r, rfl, rfl, rfl, h⟩

theorem taskList_length (models : List DGModel) :
    ∀ idxs : List (List ℕ),
      (taskList models idxs).length = idxs.length * models.length := by
  intro idxs
  induction idxs with
  | nil => simp [taskList]
  | cons idx rest ih =>
    show ((models.map (fun m => (m, idx))) ++ taskList models rest).length = _
    rw [List.length_append, List.length_map, ih, List.length_cons]
    ring

theorem taskList_get (models : List DGModel) :
    ∀ (idxs : List (List ℕ)) (i j : ℕ) (hi : i < idxs.length)
      (hj : j < models.length),
      (taskList models idxs)[i * models.length + j]? =
        some (models.get ⟨j, hj⟩, idxs.get ⟨i, hi⟩) := by
  intro idxs
  induction idxs with
  | nil => intro i j hi; exact absurd hi (Nat.not_lt_zero i)
  | cons idx rest ih =>
    intro i j hi hj
    have hsplit : taskList models (idx :: rest) =
        (models.map (fun m => (m, idx))) ++ taskList models rest := rfl
    rw [hsplit]
    cases i with
    | zero =>
      rw [Nat.zero_mul, Nat.zero_add,
          List.getElem?_append_left (by simpa using hj),
          List.getElem?_map, List.getElem?_eq_getElem hj]
      simp [List.get_eq_getElem]
    | succ i =>
      have hge : (models.map (fun m => (m, idx))).length ≤
          (i + 1) * models.length + j := by
        rw [List.length_map]
        calc models.length ≤ (i + 1) * models.length := by
              have h1 : 1 * models.length ≤ (i + 1) * models.length :=
                Nat.mul_le_mul_right models.length (by omega)
              simpa using h1
          _ ≤ (i + 1) * models.length + j := Nat.le_add_right _ _
      rw [List.getElem?_append_right hge]
      have harith : (i + 1) * models.length + j -
          (models.map (fun m => (m, idx))).length =
          i * models.length + j := by
        rw [List.length_map, Nat.succ_mul]
        omega
      rw [harith]
      have hi' : i < rest.length := by
        simpa using Nat.lt_of_succ_lt_succ (by simpa using hi)
      rw [ih i j hi' hj]
      simp [List.get_eq_getElem]

theorem flatten_singletons :
    ∀ ts : List (List FitRecord),
      (∀ tb ∈ ts, ∃ r, tb = [r]) →
      ts.flatten.length = ts.length ∧
      ∀ i : ℕ, ts.flatten[i]? = ts[i]?.bind List.head? := by
  intro ts
  induction ts with
  | nil => intro _; exact ⟨rfl, fun i => by simp⟩
  | cons tb ts ih =>
    intro h
    obtain ⟨r, rfl⟩ := h tb (List.mem_cons_self tb ts)
    obtain ⟨hlen, hpt⟩ := ih (fun tb' htb' => h tb' (List.mem_cons_of_mem _ htb'))
    constructor
    · simp [hlen]
    · intro i
      cases i with
      | zero => simp
      | succ i => simpa using hpt i

theorem mapM_getPos_range (l : List PVal) :
    (List.range l.length).mapM (getPos l) = Except.ok l := by
  have h : ∀ i ∈ List.range l.length,
      getPos l i = Except.ok (l.getD i PVal.nan) := by
    intro i hi
    have hi' : i < l.length := List.mem_range.mp hi
    unfold getPos
    rw [List.get?_eq_getElem?, List.getElem?_eq_getElem hi']
    simp [List.getD_eq_getElem?_getD, List.getElem?_eq_getElem hi']
  rw [mapM_ok_of_forall h, range_map_getD]

theorem ilocRows_range_wf {X : Frame} (hwf : X.wf) :
    X.ilocRows (List.range X.index.length) = Except.ok X := by
  unfold Frame.ilocRows
  rw [mapM_getPos_range]
  simp only [exc_bind_ok]
  have hcols : X.cols.mapM (fun c => do
      let vs ← (List.range X.index.length).mapM (getPos c.2)
      Except.ok (c.1, vs)) = Except.ok (X.cols.map (fun c => c)) := by
    apply mapM_ok_of_forall
    intro c hc
    rw [← hwf c hc, mapM_getPos_range]
    rfl
  rw [hcols]
  simp only [List.map_id', exc_bind_ok]

theorem series_ilocRows_range {y : Series} {n : ℕ}
    (h1 : y.index.length = n) (h2 : y.values.length = n) :
    y.ilocRows (List.range n) = Except.ok y := by
  unfold Series.ilocRows
  rw [← h1, mapM_getPos_range]
  simp only [exc_bind_ok]
  rw [h1, ← h2, mapM_getPos_range]
  rfl

theorem train_models_ok_tables {α : Type} (models : List DGModel)
    (X : Frame) (y : Series) (em : Metric)
    (splits : Option (List (α × List ℕ))) (method : String)
    (n_jobs verbose : ℤ) (times : ℕ → ℚ × ℚ) (order : List ℕ)
    (df : List FitRecord)
    (h : train_models models X y em splits method n_jobs verbose times
      order = Except.ok df)
    (hord : n_jobs ≠ 1 → order.Perm (List.range
      (taskList models (effIdxLists splits X.index.length)).length)) :
    ∃ tables : List (List FitRecord),
      tables.length =
        (taskList models (effIdxLists splits X.index.length)).length ∧
      df = tables.flatten ∧
      ∀ (i : ℕ) (t : DGModel × List ℕ),
        (taskList models (effIdxLists splits X.index.length))[i]? = some t →
        runTask X y em method times i t = Except.ok (tables.getD i []) := by
  by_cases hnj : n_jobs = 1
  · subst hnj
    rw [train_models_def, if_neg (by simp)] at h
    cases hm : (taskList models (effIdxLists splits X.index.length)).enum.mapM
        (fun p => runTask X y em method times p.1 p.2) with
    | error e => rw [hm, exc_map_error] at h; exact Except.noConfusion h
    | ok tables =>
      rw [hm, exc_map_ok] at h
      obtain ⟨hlen, hpt⟩ := mapM_ok_char hm
      refine ⟨tables, by simpa using hlen, by simpa using h.symm, ?_⟩
      intro i t ht
      have henum : (taskList models
          (effIdxLists splits X.index.length)).enum[i]? = some (i, t) := by
        rw [List.getElem?_enum, ht]
        rfl
      obtain ⟨tb, htb, hrun⟩ := hpt i (i, t) henum
      have hgd : tables.getD i [] = tb := by
        simp [List.getD_eq_getElem?_getD, htb]
      rw [hgd]
      exact hrun
  · rw [train_models_def, if_pos hnj] at h
    have hperm := hord hnj
    cases hex : execInOrder (taskAt X y em method times
        (taskList models (effIdxLists splits X.index.length))) order with
    | error e => rw [hex, exc_map_error] at h; exact Except.noConfusion h
    | ok cs =>
      rw [hex, exc_map_ok] at h
      set g : ℕ → List FitRecord := fun i =>
        ((taskAt X y em method times
          (taskList models (effIdxLists splits X.index.length)) i).toOption).getD []
        with hgdef
      have hok : ∀ i ∈ order, taskAt X y em method times
          (taskList models (effIdxLists splits X.index.length)) i =
          Except.ok (g i) := by
        intro i hi
        obtain ⟨c, hc⟩ := mapM_ok_forall_mem hex i hi
        cases ht : taskAt X y em method times
            (taskList models (effIdxLists splits X.index.length)) i with
        | error e => rw [ht, exc_map_error] at hc; exact Except.noConfusion hc
        | ok tb => simp [hgdef, ht, Except.toOption]
      have hex2 : execInOrder (taskAt X y em method times
          (taskList models (effIdxLists splits X.index.length))) order =
          Except.ok (order.map (fun i => (i, g i))) := by
        apply mapM_ok_of_forall
        intro i hi
        rw [hok i hi, exc_map_ok]
      rw [hex] at hex2
      have hcs : cs = order.map (fun i => (i, g i)) := by
        simpa using hex2
      subst hcs
      rw [reassemble_map g
        (fun j hj => (hperm.mem_iff).mpr (List.mem_range.mpr hj))] at h
      refine ⟨(List.range (taskList models
          (effIdxLists splits X.index.length)).length).map g,
        by simp, by simpa using h.symm, ?_⟩
      intro i t ht
      have hi_lt : i < (taskList models
          (effIdxLists splits X.index.length)).length := by
        by_contra hge
        rw [List.getElem?_eq_none (by omega)] at ht
        exact Option.noConfusion ht
      have hio : i ∈ order := (hperm.mem_iff).mpr (List.mem_range.mpr hi_lt)
      have hrun := hok i hio
      rw [taskAt_eq_of_get ht] at hrun
      have hgd : ((List.range (taskList models
          (effIdxLists splits X.index.length)).length).map g).getD i [] =
          g i := by
        simp [List.getD_eq_getElem?_getD, List.getElem?_map,
              List.getElem?_range hi_lt]
      rw [hgd]
      exact hrun

/-- Claim C3: for m candidate models and k splits, `train_models`
returns a table of exactly k×m rows in split-major order — the row at
position `i*m + j` is the single record `train_model` produced for
model `j` on the slice of split `i` — with the index renumbered
contiguously from zero (inherent in the list representation); with
`splits = none` it returns exactly `models.length` rows, one per
model, each fitted on the whole window. -/
theorem C3_train_models_cross_product {α : Type} (models : List DGModel)
    (X_train : Frame) (y_train : Series) (error_metric : Metric)
    (splits : Option (List (α × List ℕ))) (method : String)
    (n_jobs verbose : ℤ) (times : ℕ → ℚ × ℚ) (order : List ℕ)
    (df : List FitRecord)
    (h : train_models models X_train y_train error_metric splits method
      n_jobs verbose times order = Except.ok df)
    (hord : n_jobs ≠ 1 → order.Perm (List.range
      (taskList models (effIdxLists splits X_train.index.length)).length)) :
    df.length = (effIdxLists splits X_train.index.length).length *
      models.length ∧
    (∀ (i j : ℕ) (hi : i < (effIdxLists splits X_train.index.length).length)
        (hj : j < models.length),
      ∃ Xs ys r,
        X_train.ilocRows ((effIdxLists splits X_train.index.length).get
          ⟨i, hi⟩) = Except.ok Xs ∧
        y_train.ilocRows ((effIdxLists splits X_train.index.length).get
          ⟨i, hi⟩) = Except.ok ys ∧
        df[i * models.length + j]? = some r ∧
        train_model (models.get ⟨j, hj⟩) Xs ys error_metric method
          (times (i * models.length + j)).1
          (times (i * models.length + j)).2 = Except.ok [r]) ∧
    (splits = none → X_train.wf →
      y_train.index.length = X_train.index.length →
      y_train.values.length = X_train.index.length →
      ∀ (j : ℕ) (hj : j < models.length),
        ∃ r, df[j]? = some r ∧
          train_model (models.get ⟨j, hj⟩) X_train y_train error_metric
            method (times j).1 (times j).2 = Except.ok [r]) := by
  obtain ⟨tables, hlen, hdf, hpt⟩ := train_models_ok_tables models X_train
    y_train error_metric splits method n_jobs verbose times order df h hord
  have hsing : ∀ tb ∈ tables, ∃ r, tb = [r] := by
    intro tb htb
    obtain ⟨i, hitb⟩ := List.mem_iff_getElem?.mp htb
    obtain ⟨hi_lt, _⟩ := List.getElem?_eq_some.mp hitb
    have hi_lt' : i < (taskList models
        (effIdxLists splits X_train.index.length)).length := by
      rw [← hlen]; exact hi_lt
    have hrun := hpt i _ (List.getElem?_eq_getElem hi_lt')
    obtain ⟨_, _, r, _, _, htbr, _⟩ := runTask_ok_elim hrun
    refine ⟨r, ?_⟩
    rw [← htbr]
    simp [List.getD_eq_getElem?_getD, hitb]
  obtain ⟨hflen, hfpt⟩ := flatten_singletons tables hsing
  have hmain : ∀ (i j : ℕ)
      (hi : i < (effIdxLists splits X_train.index.length).length)
      (hj : j < models.length),
      ∃ Xs ys r,
        X_train.ilocRows ((effIdxLists splits X_train.index.length).get
          ⟨i, hi⟩) = Except.ok Xs ∧
        y_train.ilocRows ((effIdxLists splits X_train.index.length).get
          ⟨i, hi⟩) = Except.ok ys ∧
        df[i * models.length + j]? = some r ∧
        train_model (models.get ⟨j, hj⟩) Xs ys error_metric method
          (times (i * models.length + j)).1
          (times (i * models.length + j)).2 = Except.ok [r] := by
    intro i j hi hj
    have hpos_lt : i * models.length + j <
        (taskList models (effIdxLists splits X_train.index.length)).length := by
      rw [taskList_length]
      calc i * models.length + j < i * models.length + models.length := by
            omega
        _ = (i + 1) * models.length := by rw [Nat.succ_mul]
        _ ≤ (effIdxLists splits X_train.index.length).length *
              models.length := Nat.mul_le_mul_right models.length hi
    have htget := taskList_get models
      (effIdxLists splits X_train.index.length) i j hi hj
    have hrun := hpt (i * models.length + j) _ htget
    obtain ⟨Xs, ys, r, hXs, hys, htb, htm⟩ := runTask_ok_elim hrun
    refine ⟨Xs, ys, r, hXs, hys, ?_, htm⟩
    rw [hdf, hfpt]
    have hp_lt : i * models.length + j < tables.length := by
      rw [hlen]; exact hpos_lt
    rw [List.getElem?_eq_getElem hp_lt]
    have hval : tables[i * models.length + j] = [r] := by
      rw [← htb]
      simp [List.getD_eq_getElem?_getD, List.getElem?_eq_getElem hp_lt]
    rw [hval]
    rfl
  refine ⟨?_, hmain, ?_⟩
  · rw [hdf, hflen, hlen, taskList_length]
  · intro hsplits hwf h1 h2 j hj
    subst hsplits
    have hi0 : (0 : ℕ) < (effIdxLists
        (none : Option (List (α × List ℕ))) X_train.index.length).length := by
      simp [effIdxLists]
    obtain ⟨Xs, ys, r, hXs, hys, hdfj, htm⟩ := hmain 0 j hi0 hj
    simp only [Nat.zero_mul, Nat.zero_add] at hdfj htm
    have hgetidx : (effIdxLists (none : Option (List (α × List ℕ)))
        X_train.index.length).get ⟨0, hi0⟩ =
        List.range X_train.index.length := rfl
    rw [hgetidx, ilocRows_range_wf hwf] at hXs
    rw [hgetidx, series_ilocRows_range h1 h2] at hys
    have hXs' : Xs = X_train := by simpa using hXs.symm
    have hys' : ys = y_train := by simpa using hys.symm
    subst hXs'
    subst hys'
    exact ⟨r, hdfj, htm⟩

/-- Witness for C3 at a concrete serial batch: two models, no splits;
two rows, and the second row is the failure record of the second
model fitted on the whole window. -/
theorem C3_witness :
    wDfT.length = (effIdxLists (none : Option (List (Unit × List ℕ)))
      wX.index.length).length * wModels.length ∧
    (∃ r, wDfT[1]? = some r ∧
      train_model (wModels.get ⟨1, by decide⟩) wX wY wEm "nelder"
        (wTimes 1).1 (wTimes 1).2 = Except.ok [r]) :=
  ⟨(C3_train_models_cross_product wModels wX wY wEm
      (none : Option (List (Unit × List ℕ))) "nelder" 1 10 wTimes [] wDfT
      (by rfl) (fun hne => absurd rfl hne)).1,
   (C3_train_models_cross_product wModels wX wY wEm
      (none : Option (List (Unit × List ℕ))) "nelder" 1 10 wTimes [] wDfT
      (by rfl) (fun hne => absurd rfl hne)).2.2 rfl
      (by unfold Frame.wf; decide) (by rfl) (by rfl) 1 (by decide)⟩

/-- Claim C4: over identical inputs (including the per-task timer
readings), the parallel branch of `train_models` (`n_jobs ≠ 1`), for
every completion order of the workers, produces exactly the table the
serial branch (`n_jobs = 1`) produces — same row order, same field
values. -/
theorem C4_parallel_serial_equal {α : Type} (models : List DGModel)
    (X_train : Frame) (y_train : Series) (error_metric : Metric)
    (splits : Option (List (α × List ℕ))) (method : String)
    (n_jobs verbose : ℤ) (times : ℕ → ℚ × ℚ) (order : List ℕ)
    (df : List FitRecord)
    (hnj : n_jobs ≠ 1)
    (hperm : order.Perm (List.range
      (taskList models (effIdxLists splits X_train.index.length)).length))
    (hser : train_models models X_train y_train error_metric splits method
      1 verbose times order = Except.ok df) :
    train_models models X_train y_train error_metric splits method
      n_jobs verbose times order = Except.ok df := by
  obtain ⟨tables, hlen, hdf, hpt⟩ := train_models_ok_tables models X_train
    y_train error_metric splits method 1 verbose times order df hser
    (fun hne => absurd rfl hne)
  rw [train_models_def, if_pos hnj]
  have hok : ∀ i ∈ order, taskAt X_train y_train error_metric method times
      (taskList models (effIdxLists splits X_train.index.length)) i =
      Except.ok (tables.getD i []) := by
    intro i hi
    have hi_lt : i < (taskList models
        (effIdxLists splits X_train.index.length)).length :=
      List.mem_range.mp ((hperm.mem_iff).mp hi)
    have htget := List.getElem?_eq_getElem hi_lt
    rw [taskAt_eq_of_get htget]
    exact hpt i _ htget
  have hex : execInOrder (taskAt X_train y_train error_metric method times
      (taskList models (effIdxLists splits X_train.index.length))) order =
      Except.ok (order.map (fun i => (i, tables.getD i []))) :=
    mapM_ok_of_forall (fun i hi => by rw [hok i hi, exc_map_ok])
  rw [hex, exc_map_ok,
      reassemble_map (fun i => tables.getD i [])
        (fun j hj => (hperm.mem_iff).mpr (List.mem_range.mpr hj))]
  have hrt : (List.range (taskList models
      (effIdxLists splits X_train.index.length)).length).map
      (fun i => tables.getD i []) = tables := by
    rw [← hlen]
    exact range_map_getD [] tables
  rw [hrt, ← hdf]

/-- Witness for C4: two models, no splits, workers completing in
reversed order; the parallel table equals the serial one. -/
theorem C4_witness :
    train_models wModels wX wY wEm (none : Option (List (Unit × List ℕ)))
      "nelder" (-1) 10 wTimes [1, 0] = Except.ok wDfT :=
  C4_parallel_serial_equal wModels wX wY wEm
    (none : Option (List (Unit × List ℕ))) "nelder" (-1) 10 wTimes [1, 0]
    wDfT (by decide) (List.Perm.swap 0 1 []) (by rfl)
